import Mathlib

/-!
Shallow embedding of the THD rendezvous store
(`torch/lib/THD/base/data_channels/Store.cpp`).

The coordinator (`Store::StoreDeamon`) owns three pieces of state:
`_store` (a `std::map<std::string, std::vector<char>>`), `_waiting`
(a `std::map<std::string, std::vector<int>>` of connection indices blocked
per key) and `_keys_awaited` (a `std::vector<int>` of per-connection
outstanding-wait counters).  Requests are SET / GET / WAIT, handled by
`Store::StoreDeamon::query`; an unknown opcode throws, a GET on a missing
key throws (`std::map::at`), and any exception terminates the whole event
loop (`Store::StoreDeamon::deamon` sets `finished = true` and breaks).

`std::map` is modelled as an association list with first-match lookup,
in-place overwrite and first-match erase; the counter vector is modelled as
a function `Nat → Int` (all indices used by the daemon are accepted
connection indices, which are in range).  Byte vectors are `List Nat`.
-/

namespace THD

/-- Opaque byte sequence (`std::vector<char>`). -/
abbrev Bytes := List Nat

/-- The one-byte operation codes, in the order of the C++ `enum class QueryType`. -/
inductive QueryType where
  | SET
  | GET
  | WAIT
  | STOP_WAITING
  deriving DecidableEq

/-- The underlying opcode byte of a `QueryType` (`std::uint8_t` enum values 0..3). -/
def QueryType.toByte : QueryType → Nat
  | .SET => 0
  | .GET => 1
  | .WAIT => 2
  | .STOP_WAITING => 3

/-- A parsed request as read off a connection by `query`: the opcode byte
followed by the branch-specific payload.  `other b` stands for a leading
opcode byte `b` that is none of SET, GET, WAIT. -/
inductive Request where
  | set (key : String) (data : Bytes)
  | get (key : String)
  | wait (keys : List String)
  | other (opcode : Nat)
  deriving DecidableEq

/-- Dispatch on the raw leading opcode byte, as the `if`/`else if` chain in
`query` does: byte 0 starts a SET, byte 1 a GET, byte 2 a WAIT, and any
other byte falls through to the `throw` branch. -/
def decodeRequest (b : Nat) (key : String) (data : Bytes) (keys : List String) : Request :=
  if b = QueryType.SET.toByte then .set key data
  else if b = QueryType.GET.toByte then .get key
  else if b = QueryType.WAIT.toByte then .wait keys
  else .other b

/-- A message sent by the daemon to a connection: either the
`STOP_WAITING` opcode byte, or the raw byte-blob reply to a GET. -/
inductive Msg where
  | stopWaiting (rank : Nat)
  | value (rank : Nat) (data : Bytes)
  deriving DecidableEq

/-- The exceptions `query` can throw: `std::map::at` on a missing key
(GET branch) and `std::runtime_error("expected a query type")`. -/
inductive QueryError where
  | outOfRange
  | badQueryType
  deriving DecidableEq

/-! ### `std::map` as an association list -/

/-- First-match lookup (`std::map::find` / `count`). -/
def mapFind {α : Type} : List (String × α) → String → Option α
  | [], _ => none
  | (k', v) :: rest, k => if k' = k then some v else mapFind rest k

/-- Overwrite-or-add (`m[k] = v`): replaces the first entry with key `k`,
or appends a new entry. -/
def mapInsert {α : Type} : List (String × α) → String → α → List (String × α)
  | [], k, v => [(k, v)]
  | (k', v') :: rest, k, v =>
      if k' = k then (k, v) :: rest else (k', v') :: mapInsert rest k v

/-- Erase the first entry with key `k` (`std::map::erase` of a found iterator). -/
def mapErase {α : Type} : List (String × α) → String → List (String × α)
  | [], _ => []
  | (k', v') :: rest, k => if k' = k then rest else (k', v') :: mapErase rest k

/-! ### Daemon state and request processing -/

/-- The mutable state of `Store::StoreDeamon` (the socket bookkeeping is
I/O and is not part of the state the claims are about). -/
structure StoreDeamon where
  _store : List (String × Bytes)
  _waiting : List (String × List Nat)
  _keys_awaited : Nat → Int

/-- Pointwise update of the counter vector (`_keys_awaited[i] = v`). -/
def updateFn (f : Nat → Int) (i : Nat) (v : Int) : Nat → Int :=
  fun j => if j = i then v else f j

/-- Initial daemon state: empty store, empty waiter map, all counters zero
(`_keys_awaited(world_size, 0)`). -/
def StoreDeamon.init : StoreDeamon :=
  { _store := [], _waiting := [], _keys_awaited := fun _ => 0 }

/-- A small concrete daemon state used to exercise the SET wake path: one
waiter (connection 1) registered on key "k" with outstanding-wait
counter 1. -/
def sampleWaiter : StoreDeamon :=
  { _store := [],
    _waiting := [("k", [1])],
    _keys_awaited := fun j => if j = 1 then 1 else 0 }

/-- The wake loop inside the SET branch of `query`: for each `proc` in the
waiter list of the key just set, `if (--_keys_awaited[proc] == 0)
send STOP_WAITING`.  Returns the updated counters and the messages sent,
in sending order. -/
def wakeProcs (ka : Nat → Int) : List Nat → (Nat → Int) × List Msg
  | [] => (ka, [])
  | proc :: rest =>
      let ka' := updateFn ka proc (ka proc - 1)
      let res := wakeProcs ka' rest
      if ka proc - 1 = 0 then (res.1, .stopWaiting proc :: res.2) else res

/-- `Store::StoreDeamon::checkAndUpdate`: walks the key list, erasing the
keys already in the store and keeping the absent ones; returns `true` iff
no key was absent, together with the surviving (absent) keys, in order. -/
def checkAndUpdate (store : List (String × Bytes)) : List String → Bool × List String
  | [] => (true, [])
  | k :: rest =>
      let res := checkAndUpdate store rest
      if mapFind store k = none then (false, k :: res.2) else res

/-- `_waiting[key].push_back(rank)`: default-constructs an empty list when
the key is absent, then appends. -/
def waitingPush (w : List (String × List Nat)) (key : String) (rank : Nat) :
    List (String × List Nat) :=
  mapInsert w key (((mapFind w key).getD []) ++ [rank])

/-- `Store::StoreDeamon::query`, processing one complete request from the
connection with acceptance index `rank`.  Returns the new state and the
messages sent, or the exception thrown. -/
def query (rank : Nat) (req : Request) (s : StoreDeamon) :
    Except QueryError (StoreDeamon × List Msg) :=
  match req with
  | .set key data =>
      let store' := mapInsert s._store key data
      match mapFind s._waiting key with
      | some to_wake =>
          let res := wakeProcs s._keys_awaited to_wake
          .ok ({ _store := store',
                 _waiting := mapErase s._waiting key,
                 _keys_awaited := res.1 }, res.2)
      | none => .ok ({ s with _store := store' }, [])
  | .get key =>
      match mapFind s._store key with
      | some data => .ok (s, [.value rank data])
      | none => .error .outOfRange
  | .wait keys =>
      let res := checkAndUpdate s._store keys
      if res.1 then
        .ok (s, [.stopWaiting rank])
      else
        .ok ({ s with
               _waiting := res.2.foldl (fun w key => waitingPush w key rank) s._waiting,
               _keys_awaited := updateFn s._keys_awaited rank (res.2.length : Int) }, [])
  | .other _ => .error .badQueryType

/-- The receive half of `Store::StoreDeamon::deamon`: process a sequence of
arriving requests in order; the first exception sets `finished = true` and
breaks, so the failing request and everything after it have no effect and
produce no messages. -/
def runDeamon (s : StoreDeamon) : List (Nat × Request) → StoreDeamon × List Msg
  | [] => (s, [])
  | (rank, req) :: rest =>
      match query rank req s with
      | .error _ => (s, [])
      | .ok (s', msgs) =>
          let res := runDeamon s' rest
          (res.1, msgs ++ res.2)

/-! ### Observation helpers -/

/-- Number of `STOP_WAITING` notifications addressed to connection `r`. -/
def countStops (msgs : List Msg) (r : Nat) : Nat :=
  msgs.count (.stopWaiting r)

/-- Destination connection of a message. -/
def Msg.dest : Msg → Nat
  | .stopWaiting rank => rank
  | .value rank _ => rank

/-- The messages addressed to connection `r`, in sending order. -/
def msgsTo (msgs : List Msg) (r : Nat) : List Msg :=
  msgs.filter (fun m => m.dest = r)

/-- Connection `r` appears in no waiter list of `s`. -/
def notInWaiting (s : StoreDeamon) (r : Nat) : Prop :=
  ∀ e ∈ s._waiting, r ∉ e.2

/-- Every waiter list holding connection `r` belongs to a key satisfying `P`. -/
def waitsOnlyOn (s : StoreDeamon) (r : Nat) (P : String → Prop) : Prop :=
  ∀ e ∈ s._waiting, r ∈ e.2 → P e.1

/-- Total number of occurrences of connection `r` across all waiter lists. -/
def totalOcc (w : List (String × List Nat)) (r : Nat) : Nat :=
  (w.map (fun e => e.2.count r)).sum

/-- The bookkeeping invariant of the daemon: every connection's
outstanding-wait counter equals the total number of occurrences of its
index across all waiter lists. -/
def Inv (s : StoreDeamon) : Prop :=
  ∀ r, s._keys_awaited r = (totalOcc s._waiting r : Int)

/-! ### Association-list lemmas -/

theorem mapFind_mapInsert_self {α : Type} (m : List (String × α)) (k : String) (v : α) :
    mapFind (mapInsert m k v) k = some v := by
  induction m with
  | nil => simp [mapInsert, mapFind]
  | cons e rest ih =>
      obtain ⟨k', v'⟩ := e
      by_cases h : k' = k <;> simp [mapInsert, mapFind, h, ih]

theorem mapFind_mapInsert_ne {α : Type} (m : List (String × α)) {k k' : String} (v : α)
    (h : k' ≠ k) : mapFind (mapInsert m k v) k' = mapFind m k' := by
  have h' : k ≠ k' := Ne.symm h
  induction m with
  | nil => simp [mapInsert, mapFind, h']
  | cons e rest ih =>
      obtain ⟨k₁, v₁⟩ := e
      by_cases h₁ : k₁ = k
      · subst h₁
        simp [mapInsert, mapFind, h']
      · simp [mapInsert, mapFind, h₁, ih]

theorem mapFind_mem {α : Type} {m : List (String × α)} {k : String} {v : α}
    (h : mapFind m k = some v) : (k, v) ∈ m := by
  induction m with
  | nil => simp [mapFind] at h
  | cons e rest ih =>
      obtain ⟨k₁, v₁⟩ := e
      by_cases h₁ : k₁ = k
      · subst h₁
        simp [mapFind] at h
        simp [h]
      · simp [mapFind, h₁] at h
        exact List.mem_cons_of_mem _ (ih h)

theorem mapFind_eq_none_of_not_mem_keys {α : Type} {m : List (String × α)} {k : String}
    (h : k ∉ m.map Prod.fst) : mapFind m k = none := by
  induction m with
  | nil => simp [mapFind]
  | cons e rest ih =>
      obtain ⟨k₁, v₁⟩ := e
      have h₁ : k₁ ≠ k := by
        intro hh
        exact h (by simp [hh])
      have h₂ : k ∉ rest.map Prod.fst := by
        intro hh
        exact h (by simp [hh])
      simp [mapFind, h₁, ih h₂]

theorem mem_mapInsert {α : Type} {m : List (String × α)} {k : String} {v : α} {e : String × α}
    (h : e ∈ mapInsert m k v) : e = (k, v) ∨ e ∈ m := by
  induction m with
  | nil =>
      simp [mapInsert] at h
      exact Or.inl h
  | cons e₁ rest ih =>
      obtain ⟨k₁, v₁⟩ := e₁
      by_cases h₁ : k₁ = k
      · simp [mapInsert, h₁] at h
        rcases h with h | h
        · exact Or.inl h
        · exact Or.inr (List.mem_cons_of_mem _ h)
      · simp [mapInsert, h₁] at h
        rcases h with h | h
        · exact Or.inr (by simp [h])
        · rcases ih h with h' | h'
          · exact Or.inl h'
          · exact Or.inr (List.mem_cons_of_mem _ h')

theorem mem_mapErase {α : Type} {m : List (String × α)} {k : String} {e : String × α}
    (h : e ∈ mapErase m k) : e ∈ m := by
  induction m with
  | nil => simp [mapErase] at h
  | cons e₁ rest ih =>
      obtain ⟨k₁, v₁⟩ := e₁
      by_cases h₁ : k₁ = k
      · simp [mapErase, h₁] at h
        exact List.mem_cons_of_mem _ h
      · simp [mapErase, h₁] at h
        rcases h with h | h
        · simp [h]
        · exact List.mem_cons_of_mem _ (ih h)

theorem mapErase_mapInsert_self {α : Type} (m : List (String × α)) (k : String) (v : α) :
    mapErase (mapInsert m k v) k = mapErase m k := by
  induction m with
  | nil => simp [mapInsert, mapErase]
  | cons e rest ih =>
      obtain ⟨k₁, v₁⟩ := e
      by_cases h₁ : k₁ = k <;> simp [mapInsert, mapErase, h₁, ih]

theorem mapErase_mapInsert_ne {α : Type} (m : List (String × α)) {k k' : String} (v : α)
    (h : k ≠ k') : mapErase (mapInsert m k v) k' = mapInsert (mapErase m k') k v := by
  have h' : k' ≠ k := Ne.symm h
  induction m with
  | nil => simp [mapInsert, mapErase, h]
  | cons e rest ih =>
      obtain ⟨k₁, v₁⟩ := e
      by_cases h₁ : k₁ = k
      · subst h₁
        simp [mapInsert, mapErase, h, h']
      · by_cases h₂ : k₁ = k'
        · subst h₂
          simp [mapInsert, mapErase, h₁, h']
        · simp [mapInsert, mapErase, h₁, h₂, ih]

theorem mapFind_mapErase_ne {α : Type} (m : List (String × α)) {k k' : String}
    (h : k' ≠ k) : mapFind (mapErase m k) k' = mapFind m k' := by
  have h' : k ≠ k' := Ne.symm h
  induction m with
  | nil => simp [mapErase]
  | cons e rest ih =>
      obtain ⟨k₁, v₁⟩ := e
      by_cases h₁ : k₁ = k
      · subst h₁
        simp [mapErase, mapFind, h']
      · simp [mapErase, mapFind, h₁, ih]

theorem mapFind_mapErase_self {α : Type} {m : List (String × α)} {k : String}
    (hnd : (m.map Prod.fst).Nodup) : mapFind (mapErase m k) k = none := by
  induction m with
  | nil => simp [mapErase, mapFind]
  | cons e rest ih =>
      obtain ⟨k₁, v₁⟩ := e
      rw [List.map_cons, List.nodup_cons] at hnd
      by_cases h₁ : k₁ = k
      · subst h₁
        simp only [mapErase, if_pos rfl]
        exact mapFind_eq_none_of_not_mem_keys hnd.1
      · simp [mapErase, mapFind, h₁, ih hnd.2]

theorem mapErase_eq_self_of_find_none {α : Type} {m : List (String × α)} {k : String}
    (h : mapFind m k = none) : mapErase m k = m := by
  induction m with
  | nil => simp [mapErase]
  | cons e rest ih =>
      obtain ⟨k₁, v₁⟩ := e
      by_cases h₁ : k₁ = k
      · simp [mapFind, h₁] at h
      · simp [mapFind, h₁] at h
        simp [mapErase, h₁, ih h]

/-! ### Counting STOP_WAITING messages -/

theorem countStops_nil (r : Nat) : countStops [] r = 0 := rfl

theorem countStops_append (xs ys : List Msg) (r : Nat) :
    countStops (xs ++ ys) r = countStops xs r + countStops ys r := by
  simp [countStops, List.count_append]

theorem countStops_value (q : Nat) (d : Bytes) (xs : List Msg) (r : Nat) :
    countStops (Msg.value q d :: xs) r = countStops xs r := by
  simp [countStops, List.count_cons]

theorem countStops_stop (q : Nat) (xs : List Msg) (r : Nat) :
    countStops (Msg.stopWaiting q :: xs) r = countStops xs r + (if q = r then 1 else 0) := by
  by_cases h : q = r <;> simp [countStops, List.count_cons, h]

/-! ### The SET wake loop -/

theorem wakeProcs_cons_fst (ka : Nat → Int) (q : Nat) (rest : List Nat) :
    (wakeProcs ka (q :: rest)).1 = (wakeProcs (updateFn ka q (ka q - 1)) rest).1 := by
  simp only [wakeProcs]
  split <;> rfl

theorem wakeProcs_cons_snd (ka : Nat → Int) (q : Nat) (rest : List Nat) :
    (wakeProcs ka (q :: rest)).2 =
      (if ka q - 1 = 0 then [Msg.stopWaiting q] else []) ++
        (wakeProcs (updateFn ka q (ka q - 1)) rest).2 := by
  simp only [wakeProcs]
  split <;> simp

theorem wakeProcs_fst (procs : List Nat) (ka : Nat → Int) (p : Nat) :
    (wakeProcs ka procs).1 p = ka p - (procs.count p : Int) := by
  induction procs generalizing ka with
  | nil => simp [wakeProcs]
  | cons q rest ih =>
      rw [wakeProcs_cons_fst, ih]
      by_cases hqp : q = p
      · subst hqp
        have hu : updateFn ka q (ka q - 1) q = ka q - 1 := by simp [updateFn]
        have hc : ((q :: rest).count q : Int) = (rest.count q : Int) + 1 := by
          simp [List.count_cons]
        rw [hu, hc]
        ring
      · have hu : updateFn ka q (ka q - 1) p = ka p := by
          simp [updateFn, Ne.symm hqp]
        have hc : ((q :: rest).count p : Int) = (rest.count p : Int) := by
          simp [List.count_cons, hqp]
        rw [hu, hc]

theorem wakeProcs_countStops (procs : List Nat) (ka : Nat → Int) (p : Nat) :
    countStops (wakeProcs ka procs).2 p =
      if 1 ≤ ka p ∧ ka p ≤ (procs.count p : Int) then 1 else 0 := by
  induction procs generalizing ka with
  | nil =>
      simp only [wakeProcs, countStops_nil, List.count_nil, Nat.cast_zero]
      split_ifs with h
      · omega
      · rfl
  | cons q rest ih =>
      rw [wakeProcs_cons_snd, countStops_append, ih]
      by_cases hqp : q = p
      · subst hqp
        have hu : updateFn ka q (ka q - 1) q = ka q - 1 := by simp [updateFn]
        have hc : ((q :: rest).count q : Int) = (rest.count q : Int) + 1 := by
          simp [List.count_cons]
        rw [hu, hc]
        by_cases h0 : ka q - 1 = 0
        · rw [if_pos h0]
          have hone : countStops [Msg.stopWaiting q] q = 1 := by simp [countStops]
          rw [hone]
          split_ifs <;> omega
        · rw [if_neg h0, countStops_nil]
          split_ifs <;> omega
      · have hu : updateFn ka q (ka q - 1) p = ka p := by simp [updateFn, Ne.symm hqp]
        have hc : ((q :: rest).count p : Int) = (rest.count p : Int) := by
          simp [List.count_cons, hqp]
        rw [hu, hc]
        by_cases h0 : ka q - 1 = 0 <;>
          simp [h0, countStops_stop, countStops_nil, hqp]

/-! ### checkAndUpdate and waiter registration -/

theorem checkAndUpdate_eq (store : List (String × Bytes)) (keys : List String) :
    checkAndUpdate store keys =
      ((keys.filter (fun k => (mapFind store k).isNone)).isEmpty,
        keys.filter (fun k => (mapFind store k).isNone)) := by
  induction keys with
  | nil => simp [checkAndUpdate]
  | cons k rest ih =>
      cases hk : mapFind store k with
      | none => simp [checkAndUpdate, ih, hk, List.filter_cons]
      | some v => simp [checkAndUpdate, ih, hk, List.filter_cons]

theorem mapFind_foldl_push (ks : List String) (w : List (String × List Nat)) (rank : Nat)
    (k : String) :
    mapFind (ks.foldl (fun w' key => waitingPush w' key rank) w) k =
      if ks.count k = 0 then mapFind w k
      else some (((mapFind w k).getD []) ++ List.replicate (ks.count k) rank) := by
  induction ks generalizing w with
  | nil => simp
  | cons k₁ rest ih =>
      simp only [List.foldl_cons]
      rw [ih]
      by_cases h₁ : k₁ = k
      · subst h₁
        have hfind : mapFind (waitingPush w k₁ rank) k₁ =
            some (((mapFind w k₁).getD []) ++ [rank]) := mapFind_mapInsert_self _ _ _
        have hc : (k₁ :: rest).count k₁ = rest.count k₁ + 1 := by
          simp [List.count_cons]
        rw [hc, hfind]
        by_cases h0 : rest.count k₁ = 0
        · simp [h0]
        · simp [h0, List.replicate_succ, List.append_assoc]
      · have hfind : mapFind (waitingPush w k₁ rank) k = mapFind w k :=
          mapFind_mapInsert_ne _ _ (Ne.symm h₁)
        have hc : (k₁ :: rest).count k = rest.count k := by
          simp [List.count_cons, h₁]
        rw [hfind, hc]

/-! ### Total waiter-list occurrences -/

theorem totalOcc_cons (e : String × List Nat) (w : List (String × List Nat)) (r : Nat) :
    totalOcc (e :: w) r = e.2.count r + totalOcc w r := by
  simp [totalOcc]

theorem totalOcc_erase {w : List (String × List Nat)} {k : String} {l : List Nat}
    (h : mapFind w k = some l) (r : Nat) :
    totalOcc w r = totalOcc (mapErase w k) r + l.count r := by
  induction w with
  | nil => simp [mapFind] at h
  | cons e rest ih =>
      obtain ⟨k₁, l₁⟩ := e
      by_cases h₁ : k₁ = k
      · subst h₁
        simp [mapFind] at h
        subst h
        simp [mapErase, totalOcc_cons]
        omega
      · simp [mapFind, h₁] at h
        simp only [mapErase, if_neg h₁, totalOcc_cons]
        rw [ih h]
        omega

theorem totalOcc_waitingPush (w : List (String × List Nat)) (k : String) (r' r : Nat) :
    totalOcc (waitingPush w k r') r = totalOcc w r + (if r' = r then 1 else 0) := by
  induction w with
  | nil =>
      by_cases h : r' = r <;>
        simp [waitingPush, mapFind, mapInsert, totalOcc, List.count_cons, h]
  | cons e rest ih =>
      obtain ⟨k₁, l₁⟩ := e
      by_cases h₁ : k₁ = k
      · subst h₁
        have hpush : waitingPush ((k₁, l₁) :: rest) k₁ r' = (k₁, l₁ ++ [r']) :: rest := by
          simp [waitingPush, mapFind, mapInsert]
        rw [hpush, totalOcc_cons, totalOcc_cons]
        simp only [List.count_append]
        have hsing : List.count r [r'] = if r' = r then 1 else 0 := by
          by_cases h : r' = r
          · subst h
            simp
          · rw [if_neg h]
            simp [List.count_cons, Ne.symm h]
        rw [hsing]
        omega
      · have hpush : waitingPush ((k₁, l₁) :: rest) k r' = (k₁, l₁) :: waitingPush rest k r' := by
          simp [waitingPush, mapFind, mapInsert, h₁]
        rw [hpush, totalOcc_cons, totalOcc_cons, ih]
        omega

theorem totalOcc_foldl_push (ks : List String) (w : List (String × List Nat)) (rank r : Nat) :
    totalOcc (ks.foldl (fun w' key => waitingPush w' key rank) w) r =
      totalOcc w r + (if rank = r then ks.length else 0) := by
  induction ks generalizing w with
  | nil => simp
  | cons k rest ih =>
      simp only [List.foldl_cons]
      rw [ih, totalOcc_waitingPush]
      by_cases h : rank = r
      · simp only [if_pos h, List.length_cons]
        omega
      · simp [h]

/-! ### Branch equations for `query` and `runDeamon` -/

theorem query_set_found {s : StoreDeamon} {key : String} {l : List Nat}
    (h : mapFind s._waiting key = some l) (rank : Nat) (data : Bytes) :
    query rank (.set key data) s =
      .ok ({ _store := mapInsert s._store key data,
             _waiting := mapErase s._waiting key,
             _keys_awaited := (wakeProcs s._keys_awaited l).1 },
           (wakeProcs s._keys_awaited l).2) := by
  simp [query, h]

theorem query_set_not_found {s : StoreDeamon} {key : String}
    (h : mapFind s._waiting key = none) (rank : Nat) (data : Bytes) :
    query rank (.set key data) s =
      .ok ({ s with _store := mapInsert s._store key data }, []) := by
  simp [query, h]

theorem query_get_found {s : StoreDeamon} {key : String} {data : Bytes}
    (h : mapFind s._store key = some data) (rank : Nat) :
    query rank (.get key) s = .ok (s, [.value rank data]) := by
  simp [query, h]

theorem query_get_missing {s : StoreDeamon} {key : String}
    (h : mapFind s._store key = none) (rank : Nat) :
    query rank (.get key) s = .error .outOfRange := by
  simp [query, h]

theorem query_wait_all_present {s : StoreDeamon} {keys : List String}
    (h : keys.filter (fun k => (mapFind s._store k).isNone) = []) (rank : Nat) :
    query rank (.wait keys) s = .ok (s, [.stopWaiting rank]) := by
  simp [query, checkAndUpdate_eq, h]

theorem query_wait_register {s : StoreDeamon} {keys : List String} (rank : Nat)
    (h : keys.filter (fun k => (mapFind s._store k).isNone) ≠ []) :
    query rank (.wait keys) s =
      .ok ({ s with
             _waiting := (keys.filter (fun k => (mapFind s._store k).isNone)).foldl
                 (fun w key => waitingPush w key rank) s._waiting,
             _keys_awaited := updateFn s._keys_awaited rank
                 ((keys.filter (fun k => (mapFind s._store k).isNone)).length : Int) }, []) := by
  simp [query, checkAndUpdate_eq, h]

theorem query_other_throws (rank b : Nat) (s : StoreDeamon) :
    query rank (.other b) s = .error .badQueryType := rfl

theorem runDeamon_nil (s : StoreDeamon) : runDeamon s [] = (s, []) := rfl

theorem runDeamon_cons_ok {rank : Nat} {req : Request} {s s' : StoreDeamon} {msgs : List Msg}
    (h : query rank req s = .ok (s', msgs)) (rest : List (Nat × Request)) :
    runDeamon s ((rank, req) :: rest) =
      ((runDeamon s' rest).1, msgs ++ (runDeamon s' rest).2) := by
  simp [runDeamon, h]

theorem runDeamon_cons_error {rank : Nat} {req : Request} {s : StoreDeamon} {err : QueryError}
    (h : query rank req s = .error err) (rest : List (Nat × Request)) :
    runDeamon s ((rank, req) :: rest) = (s, []) := by
  simp [runDeamon, h]

/-! ### Messages to a connection that is not waiting on any key being set -/

theorem waitsOnlyOn_foldl_push {r rank : Nat} {P : String → Prop}
    (hr : rank ≠ r) (ks : List String) :
    ∀ w, (∀ e ∈ w, r ∈ e.2 → P e.1) →
      ∀ e ∈ ks.foldl (fun w' key => waitingPush w' key rank) w, r ∈ e.2 → P e.1 := by
  induction ks with
  | nil => intro w hw; exact hw
  | cons k rest ih =>
      intro w hw
      simp only [List.foldl_cons]
      apply ih
      intro e he hre
      rcases mem_mapInsert he with h | h
      · subst h
        rcases List.mem_append.mp hre with h' | h'
        · cases hfind : mapFind w k with
          | none =>
              rw [hfind] at h'
              simp at h'
          | some l =>
              rw [hfind] at h'
              exact hw (k, l) (mapFind_mem hfind) h'
        · simp at h'
          exact absurd h'.symm hr
      · exact hw e h hre

theorem waitsOnlyOn_query_step {s s' : StoreDeamon} {r rank : Nat} {req : Request}
    {msgs : List Msg} {P : String → Prop}
    (hw : waitsOnlyOn s r P)
    (hok : query rank req s = .ok (s', msgs))
    (hset : ∀ k d, req = .set k d → ¬ P k)
    (hwait : ∀ ks, req = .wait ks → rank ≠ r) :
    waitsOnlyOn s' r P ∧ countStops msgs r = 0 := by
  cases req with
  | set key data =>
      have hPk : ¬ P key := hset key data rfl
      cases hfind : mapFind s._waiting key with
      | none =>
          rw [query_set_not_found hfind rank data, Except.ok.injEq, Prod.mk.injEq] at hok
          obtain ⟨hs', hmsgs⟩ := hok
          subst hs'
          subst hmsgs
          exact ⟨hw, rfl⟩
      | some l =>
          rw [query_set_found hfind rank data, Except.ok.injEq, Prod.mk.injEq] at hok
          obtain ⟨hs', hmsgs⟩ := hok
          subst hs'
          subst hmsgs
          have hrl : r ∉ l := fun hr => hPk (hw (key, l) (mapFind_mem hfind) hr)
          constructor
          · intro e he hre
            exact hw e (mem_mapErase he) hre
          · rw [wakeProcs_countStops]
            have hcnt : l.count r = 0 := List.count_eq_zero.mpr hrl
            rw [hcnt]
            split_ifs with h
            · omega
            · rfl
  | get key =>
      cases hfind : mapFind s._store key with
      | none => rw [query_get_missing hfind rank] at hok; simp at hok
      | some data =>
          rw [query_get_found hfind rank, Except.ok.injEq, Prod.mk.injEq] at hok
          obtain ⟨hs', hmsgs⟩ := hok
          subst hs'
          subst hmsgs
          exact ⟨hw, by simp [countStops, List.count_cons]⟩
  | wait ks =>
      have hrank : rank ≠ r := hwait ks rfl
      by_cases hf : ks.filter (fun k => (mapFind s._store k).isNone) = []
      · rw [query_wait_all_present hf rank, Except.ok.injEq, Prod.mk.injEq] at hok
        obtain ⟨hs', hmsgs⟩ := hok
        subst hs'
        subst hmsgs
        exact ⟨hw, by simp [countStops, List.count_cons, hrank]⟩
      · rw [query_wait_register rank hf, Except.ok.injEq, Prod.mk.injEq] at hok
        obtain ⟨hs', hmsgs⟩ := hok
        subst hs'
        subst hmsgs
        exact ⟨waitsOnlyOn_foldl_push hrank _ _ hw, rfl⟩
  | other b =>
      rw [query_other_throws rank b s] at hok
      simp at hok

theorem noStops_run {P : String → Prop} (evts : List (Nat × Request)) :
    ∀ (s : StoreDeamon) (r : Nat), waitsOnlyOn s r P →
    (∀ e ∈ evts, (∀ k d, e.2 = Request.set k d → ¬ P k) ∧
                 (∀ ks, e.2 = Request.wait ks → e.1 ≠ r)) →
    countStops (runDeamon s evts).2 r = 0 := by
  induction evts with
  | nil =>
      intro s r _ _
      rfl
  | cons ev rest ih =>
      intro s r hw hevts
      obtain ⟨rank, req⟩ := ev
      cases hq : query rank req s with
      | error err =>
          rw [runDeamon_cons_error hq]
          rfl
      | ok out =>
          obtain ⟨s', msgs⟩ := out
          rw [runDeamon_cons_ok hq]
          have hhead := hevts (rank, req) (List.mem_cons_self _ _)
          obtain ⟨hpres, hzero⟩ := waitsOnlyOn_query_step hw hq hhead.1 hhead.2
          have hrest := ih s' r hpres (fun e he => hevts e (List.mem_cons_of_mem _ he))
          show countStops (msgs ++ (runDeamon s' rest).2) r = 0
          rw [countStops_append, hzero, hrest]

/-! ### A key that is never SET stays absent -/

theorem query_store_none {s s' : StoreDeamon} {K : String} {rank : Nat} {req : Request}
    {msgs : List Msg}
    (hok : query rank req s = .ok (s', msgs))
    (hK : mapFind s._store K = none)
    (hreq : ∀ d, req ≠ Request.set K d) :
    mapFind s'._store K = none := by
  cases req with
  | set key data =>
      have hkey : key ≠ K := by
        intro h
        exact hreq data (by rw [h])
      cases hfind : mapFind s._waiting key with
      | none =>
          rw [query_set_not_found hfind rank data, Except.ok.injEq, Prod.mk.injEq] at hok
          obtain ⟨hs', -⟩ := hok
          subst hs'
          show mapFind (mapInsert s._store key data) K = none
          rw [mapFind_mapInsert_ne _ _ (Ne.symm hkey)]
          exact hK
      | some l =>
          rw [query_set_found hfind rank data, Except.ok.injEq, Prod.mk.injEq] at hok
          obtain ⟨hs', -⟩ := hok
          subst hs'
          show mapFind (mapInsert s._store key data) K = none
          rw [mapFind_mapInsert_ne _ _ (Ne.symm hkey)]
          exact hK
  | get key =>
      cases hfind : mapFind s._store key with
      | none => rw [query_get_missing hfind rank] at hok; simp at hok
      | some data =>
          rw [query_get_found hfind rank, Except.ok.injEq, Prod.mk.injEq] at hok
          obtain ⟨hs', -⟩ := hok
          subst hs'
          exact hK
  | wait ks =>
      by_cases hf : ks.filter (fun k => (mapFind s._store k).isNone) = []
      · rw [query_wait_all_present hf rank, Except.ok.injEq, Prod.mk.injEq] at hok
        obtain ⟨hs', -⟩ := hok
        subst hs'
        exact hK
      · rw [query_wait_register rank hf, Except.ok.injEq, Prod.mk.injEq] at hok
        obtain ⟨hs', -⟩ := hok
        subst hs'
        exact hK
  | other b =>
      rw [query_other_throws rank b s] at hok
      simp at hok

theorem run_store_none (evts : List (Nat × Request)) :
    ∀ (s : StoreDeamon) (K : String), mapFind s._store K = none →
    (∀ e ∈ evts, ∀ d, e.2 ≠ Request.set K d) →
    mapFind (runDeamon s evts).1._store K = none := by
  induction evts with
  | nil =>
      intro s K hK _
      exact hK
  | cons ev rest ih =>
      intro s K hK hevts
      obtain ⟨rank, req⟩ := ev
      cases hq : query rank req s with
      | error err =>
          rw [runDeamon_cons_error hq]
          exact hK
      | ok out =>
          obtain ⟨s', msgs⟩ := out
          rw [runDeamon_cons_ok hq]
          show mapFind (runDeamon s' rest).1._store K = none
          exact ih s' K
            (query_store_none hq hK (hevts (rank, req) (List.mem_cons_self _ _)))
            (fun e he => hevts e (List.mem_cons_of_mem _ he))

/-! ### Shape of SET-generated messages -/

theorem wakeProcs_msgs_shape (procs : List Nat) (ka : Nat → Int) :
    ∀ m ∈ (wakeProcs ka procs).2, ∃ p, m = Msg.stopWaiting p := by
  induction procs generalizing ka with
  | nil =>
      intro m hm
      simp [wakeProcs] at hm
  | cons q rest ih =>
      intro m hm
      rw [wakeProcs_cons_snd] at hm
      rcases List.mem_append.mp hm with h | h
      · by_cases h0 : ka q - 1 = 0
        · rw [if_pos h0] at h
          simp at h
          exact ⟨q, h⟩
        · rw [if_neg h0] at h
          simp at h
      · exact ih _ m h

theorem msgsTo_nil_of_stops (msgs : List Msg) (r : Nat) :
    (∀ m ∈ msgs, ∃ p, m = Msg.stopWaiting p) → countStops msgs r = 0 →
    msgsTo msgs r = [] := by
  induction msgs with
  | nil =>
      intro _ _
      rfl
  | cons m rest ih =>
      intro hshape hzero
      obtain ⟨p, hp⟩ := hshape m (List.mem_cons_self _ _)
      subst hp
      rw [countStops_stop] at hzero
      have hpr : ¬ p = r := by
        intro h
        rw [if_pos h] at hzero
        omega
      rw [if_neg hpr] at hzero
      have htail := ih (fun m hm => hshape m (List.mem_cons_of_mem _ hm)) (by omega)
      simpa [msgsTo, List.filter_cons, Msg.dest, hpr] using htail

theorem msgsTo_append (xs ys : List Msg) (r : Nat) :
    msgsTo (xs ++ ys) r = msgsTo xs r ++ msgsTo ys r := by
  simp [msgsTo, List.filter_append]

/-! ### Step summaries -/

theorem query_set_eq (rank : Nat) (K : String) (V : Bytes) (s : StoreDeamon) :
    query rank (.set K V) s =
      .ok ({ _store := mapInsert s._store K V,
             _waiting := mapErase s._waiting K,
             _keys_awaited := (wakeProcs s._keys_awaited ((mapFind s._waiting K).getD [])).1 },
           (wakeProcs s._keys_awaited ((mapFind s._waiting K).getD [])).2) := by
  cases hfind : mapFind s._waiting K with
  | none =>
      rw [query_set_not_found hfind rank V, mapErase_eq_self_of_find_none hfind]
      rfl
  | some l =>
      rw [query_set_found hfind rank V]
      rfl

theorem set_step (rank : Nat) (K : String) (V : Bytes) (t : StoreDeamon) :
    ∃ t' M, query rank (.set K V) t = .ok (t', M) ∧
      t'._store = mapInsert t._store K V ∧
      t'._waiting = mapErase t._waiting K ∧
      (∀ p, t'._keys_awaited p =
        t._keys_awaited p - (((mapFind t._waiting K).getD []).count p : Int)) ∧
      (∀ p, countStops M p =
        if 1 ≤ t._keys_awaited p ∧
            t._keys_awaited p ≤ (((mapFind t._waiting K).getD []).count p : Int)
          then 1 else 0) ∧
      (∀ m ∈ M, ∃ q, m = Msg.stopWaiting q) :=
  ⟨_, _, query_set_eq rank K V t, rfl, rfl,
    fun p => wakeProcs_fst _ _ p,
    fun p => wakeProcs_countStops _ _ p,
    wakeProcs_msgs_shape _ _⟩

theorem wait_register_step (rank : Nat) (keys : List String) (t : StoreDeamon)
    (h : keys.filter (fun k => (mapFind t._store k).isNone) ≠ []) :
    ∃ t', query rank (.wait keys) t = .ok (t', []) ∧
      t'._store = t._store ∧
      t'._waiting = (keys.filter (fun k => (mapFind t._store k).isNone)).foldl
        (fun w key => waitingPush w key rank) t._waiting ∧
      t'._keys_awaited = updateFn t._keys_awaited rank
        ((keys.filter (fun k => (mapFind t._store k).isNone)).length : Int) :=
  ⟨_, query_wait_register rank h, rfl, rfl, rfl⟩

theorem count_getD_zero {s : StoreDeamon} {r : Nat} (hw : notInWaiting s r) (k : String) :
    ((mapFind s._waiting k).getD []).count r = 0 := by
  cases hfind : mapFind s._waiting k with
  | none => simp
  | some l =>
      simp only [Option.getD_some]
      exact List.count_eq_zero.mpr (fun hmem => hw (k, l) (mapFind_mem hfind) hmem)

/-! ### The claims -/

/-- Claim C10: processing `WAIT` with an empty key list replies
`STOP_WAITING` to the requesting connection immediately and leaves the
daemon state — store, waiter lists and all outstanding-wait counters —
unchanged, so the participant's `wait([])` returns without blocking. -/
theorem wait_empty_immediate (rank : Nat) (s : StoreDeamon) :
    query rank (.wait []) s = .ok (s, [.stopWaiting rank]) :=
  @query_wait_all_present s [] rfl rank

/-- Claim C8: a request whose leading opcode byte is none of SET, GET and
WAIT throws, which ends the event loop: the daemon state is unchanged,
nothing is sent, and no later request from any connection is processed. -/
theorem unknown_opcode_fatal (b : Nat) (key : String) (data : Bytes) (keys : List String)
    (rank : Nat) (s : StoreDeamon) (rest : List (Nat × Request))
    (h0 : b ≠ QueryType.SET.toByte) (h1 : b ≠ QueryType.GET.toByte)
    (h2 : b ≠ QueryType.WAIT.toByte) :
    runDeamon s ((rank, decodeRequest b key data keys) :: rest) = (s, []) := by
  have hdec : decodeRequest b key data keys = .other b := by
    simp [decodeRequest, h0, h1, h2]
  rw [hdec]
  exact runDeamon_cons_error (query_other_throws rank b s) rest

theorem unknown_opcode_fatal_witness :
    ((3 : Nat) ≠ QueryType.SET.toByte ∧ (3 : Nat) ≠ QueryType.GET.toByte ∧
      (3 : Nat) ≠ QueryType.WAIT.toByte) ∧
    runDeamon StoreDeamon.init
        [(0, decodeRequest 3 "k" [] []), (1, .set "a" [1])] =
      (StoreDeamon.init, []) :=
  ⟨⟨by decide, by decide, by decide⟩,
    unknown_opcode_fatal 3 "k" [] [] 0 StoreDeamon.init [(1, .set "a" [1])]
      (by decide) (by decide) (by decide)⟩

/-- Claim C5: a GET naming a key absent from the store throws
(`std::map::at`), which is not isolated to that connection: the event loop
terminates with the state unchanged and no further request from any
connection — the `rest` of the traffic — is serviced. -/
theorem get_missing_key_fatal (rank : Nat) (key : String) (s : StoreDeamon)
    (rest : List (Nat × Request)) (h : mapFind s._store key = none) :
    runDeamon s ((rank, .get key) :: rest) = (s, []) :=
  runDeamon_cons_error (query_get_missing h rank) rest

theorem get_missing_key_fatal_witness :
    mapFind StoreDeamon.init._store "x" = none ∧
    runDeamon StoreDeamon.init [(0, .get "x"), (1, .set "a" [7])] =
      (StoreDeamon.init, []) :=
  ⟨rfl, get_missing_key_fatal 0 "x" StoreDeamon.init [(1, .set "a" [7])] rfl⟩

/-- Claim C7: last write wins — after the coordinator processes
`set(K, V1)` then `set(K, V2)`, the store maps K to V2 and a subsequent
`get(K)` is answered with exactly V2. -/
theorem last_write_wins (K : String) (V1 V2 : Bytes) (ra rb rc : Nat) (s : StoreDeamon) :
    ∃ s' pre, runDeamon s [(ra, .set K V1), (rb, .set K V2), (rc, .get K)] =
      (s', pre ++ [.value rc V2]) ∧ mapFind s'._store K = some V2 := by
  obtain ⟨S1, M1, h1, hst1, -, -, -, -⟩ := set_step ra K V1 s
  obtain ⟨S2, M2, h2, hst2, -, -, -, -⟩ := set_step rb K V2 S1
  have hfind : mapFind S2._store K = some V2 := by
    rw [hst2]
    exact mapFind_mapInsert_self _ _ _
  have h3 := query_get_found hfind rc
  rw [runDeamon_cons_ok h1, runDeamon_cons_ok h2, runDeamon_cons_ok h3, runDeamon_nil]
  exact ⟨S2, M1 ++ M2, by simp, hfind⟩

/-- Claim C3: processing `WAIT(keys)` partitions the named keys by presence
in the store; with no absent key it replies `STOP_WAITING` at once and
changes nothing, otherwise it sends no reply, appends the connection index
to each absent key's waiter list (once per occurrence, in order) and sets
the connection's outstanding-wait counter to the number of absent keys. -/
theorem wait_partitions_and_registers (rank : Nat) (keys : List String) (s : StoreDeamon) :
    (keys.filter (fun k => (mapFind s._store k).isNone) = [] →
      query rank (.wait keys) s = .ok (s, [.stopWaiting rank])) ∧
    (keys.filter (fun k => (mapFind s._store k).isNone) ≠ [] →
      ∃ s', query rank (.wait keys) s = .ok (s', []) ∧
        s'._store = s._store ∧
        s'._keys_awaited = updateFn s._keys_awaited rank
          ((keys.filter (fun k => (mapFind s._store k).isNone)).length : Int) ∧
        ∀ k, mapFind s'._waiting k =
          if (keys.filter (fun k' => (mapFind s._store k').isNone)).count k = 0
          then mapFind s._waiting k
          else some (((mapFind s._waiting k).getD []) ++
            List.replicate
              ((keys.filter (fun k' => (mapFind s._store k').isNone)).count k) rank)) := by
  constructor
  · intro h
    exact query_wait_all_present h rank
  · intro h
    obtain ⟨s', hq, hst, hwt, hka⟩ := wait_register_step rank keys s h
    refine ⟨s', hq, hst, hka, ?_⟩
    intro k
    rw [hwt]
    exact mapFind_foldl_push _ _ _ _

theorem wait_partitions_and_registers_witness :
    (["a"].filter (fun k => (mapFind StoreDeamon.init._store k).isNone) ≠ []) ∧
    (∃ s', query 0 (.wait ["a"]) StoreDeamon.init = .ok (s', []) ∧
      s'._store = StoreDeamon.init._store ∧
      s'._keys_awaited = updateFn StoreDeamon.init._keys_awaited 0
        ((["a"].filter (fun k => (mapFind StoreDeamon.init._store k).isNone)).length : Int) ∧
      ∀ k, mapFind s'._waiting k =
        if (["a"].filter (fun k' => (mapFind StoreDeamon.init._store k').isNone)).count k = 0
        then mapFind StoreDeamon.init._waiting k
        else some (((mapFind StoreDeamon.init._waiting k).getD []) ++
          List.replicate
            ((["a"].filter (fun k' => (mapFind StoreDeamon.init._store k').isNone)).count k)
            0)) :=
  ⟨by simp [StoreDeamon.init, mapFind],
    (wait_partitions_and_registers 0 ["a"] StoreDeamon.init).2
      (by simp [StoreDeamon.init, mapFind])⟩

/-- Claim C4: processing `SET(key, value)` overwrites the store entry for
key, decrements the outstanding-wait counter of every connection in key's
waiter list once per occurrence, sends `STOP_WAITING` exactly to the
connections whose counter reaches zero during that loop (exactly once
each), and erases key's waiter list entirely; waiter lists of other keys
are untouched. -/
theorem set_overwrites_wakes_clears (rank : Nat) (key : String) (v : Bytes) (s : StoreDeamon)
    (hnd : (s._waiting.map Prod.fst).Nodup) :
    ∃ s' msgs, query rank (.set key v) s = .ok (s', msgs) ∧
      (∀ k', mapFind s'._store k' =
        if k' = key then some v else mapFind s._store k') ∧
      mapFind s'._waiting key = none ∧
      (∀ k', k' ≠ key → mapFind s'._waiting k' = mapFind s._waiting k') ∧
      (∀ p, s'._keys_awaited p =
        s._keys_awaited p - (((mapFind s._waiting key).getD []).count p : Int)) ∧
      (∀ p, countStops msgs p =
        if 1 ≤ s._keys_awaited p ∧
            s._keys_awaited p ≤ (((mapFind s._waiting key).getD []).count p : Int)
          then 1 else 0) := by
  obtain ⟨s', M, h, hst, hwt, hka, hcnt, -⟩ := set_step rank key v s
  refine ⟨s', M, h, ?_, ?_, ?_, hka, hcnt⟩
  · intro k'
    rw [hst]
    by_cases hk : k' = key
    · subst hk
      rw [if_pos rfl]
      exact mapFind_mapInsert_self _ _ _
    · rw [if_neg hk]
      exact mapFind_mapInsert_ne _ _ hk
  · rw [hwt]
    exact mapFind_mapErase_self hnd
  · intro k' hk
    rw [hwt]
    exact mapFind_mapErase_ne _ hk

theorem set_overwrites_wakes_clears_witness :
    ((sampleWaiter._waiting.map Prod.fst).Nodup) ∧
    (∃ s' msgs, query 0 (.set "k" [5]) sampleWaiter = .ok (s', msgs) ∧
      (∀ k', mapFind s'._store k' =
        if k' = "k" then some [5] else mapFind sampleWaiter._store k') ∧
      mapFind s'._waiting "k" = none ∧
      (∀ k', k' ≠ "k" → mapFind s'._waiting k' = mapFind sampleWaiter._waiting k') ∧
      (∀ p, s'._keys_awaited p = sampleWaiter._keys_awaited p -
        (((mapFind sampleWaiter._waiting "k").getD []).count p : Int)) ∧
      (∀ p, countStops msgs p =
        if 1 ≤ sampleWaiter._keys_awaited p ∧
            sampleWaiter._keys_awaited p ≤
              (((mapFind sampleWaiter._waiting "k").getD []).count p : Int)
          then 1 else 0)) :=
  ⟨by simp [sampleWaiter],
    set_overwrites_wakes_clears 0 "k" [5] sampleWaiter (by simp [sampleWaiter])⟩

/-- Claim C2: for every key K and value V, when the coordinator processes
`set(K, V)`, then `wait([K])`, then `get(K)` issued by a connection r (as
`Store::get` does), the messages sent to r are exactly the immediate
`STOP_WAITING` and then the raw value V. -/
theorem set_wait_get_returns (K : String) (V : Bytes) (r r1 : Nat) (s : StoreDeamon)
    (hw : notInWaiting s r) :
    msgsTo (runDeamon s [(r1, .set K V), (r, .wait [K]), (r, .get K)]).2 r =
      [.stopWaiting r, .value r V] := by
  obtain ⟨S1, M1, h1, hst1, hwt1, hka1, hcnt1, hshape1⟩ := set_step r1 K V s
  have hzero : countStops M1 r = 0 := by
    rw [hcnt1 r, count_getD_zero hw K]
    split_ifs with hcond
    · exfalso
      omega
    · rfl
  have hm1 : msgsTo M1 r = [] := msgsTo_nil_of_stops M1 r hshape1 hzero
  have hfK : mapFind S1._store K = some V := by
    rw [hst1]
    exact mapFind_mapInsert_self _ _ _
  have hfilter : [K].filter (fun k => (mapFind S1._store k).isNone) = [] := by
    simp [List.filter_cons, hfK]
  have h2 : query r (.wait [K]) S1 = .ok (S1, [.stopWaiting r]) :=
    query_wait_all_present hfilter r
  have h3 : query r (.get K) S1 = .ok (S1, [.value r V]) := query_get_found hfK r
  rw [runDeamon_cons_ok h1, runDeamon_cons_ok h2, runDeamon_cons_ok h3, runDeamon_nil]
  show msgsTo (M1 ++ ([.stopWaiting r] ++ ([.value r V] ++ []))) r = _
  rw [msgsTo_append, hm1]
  simp [msgsTo, List.filter_cons, Msg.dest]

theorem set_wait_get_returns_witness :
    notInWaiting StoreDeamon.init 1 ∧
    msgsTo (runDeamon StoreDeamon.init
        [(0, .set "x" [42]), (1, .wait ["x"]), (1, .get "x")]).2 1 =
      [.stopWaiting 1, .value 1 [42]] :=
  ⟨by intro e he hre; simp [StoreDeamon.init] at he,
    set_wait_get_returns "x" [42] 1 0 StoreDeamon.init
      (by intro e he hre; simp [StoreDeamon.init] at he)⟩

/-- Claim C6: a participant's `get(K)` for a key that is never set cannot
complete: `Store::get` first waits on K, and across any subsequent traffic
that never sets K (and issues no new WAIT from that connection) the
coordinator never sends it `STOP_WAITING`, so the call never returns a
value; and if the `GET` for the still-absent K does reach the coordinator,
the loop terminates, ending coordination service for every connection. -/
theorem get_never_set_fatal (K : String) (r : Nat) (s : StoreDeamon)
    (evts more : List (Nat × Request))
    (hK : mapFind s._store K = none)
    (hw : notInWaiting s r)
    (hnoset : ∀ e ∈ evts, ∀ d, e.2 ≠ Request.set K d)
    (hnowait : ∀ e ∈ evts, ∀ ks, e.2 = Request.wait ks → e.1 ≠ r) :
    countStops (runDeamon s ((r, .wait [K]) :: evts)).2 r = 0 ∧
    runDeamon (runDeamon s ((r, .wait [K]) :: evts)).1 ((r, .get K) :: more) =
      ((runDeamon s ((r, .wait [K]) :: evts)).1, []) := by
  have hne : [K].filter (fun k => (mapFind s._store k).isNone) ≠ [] := by
    simp [List.filter_cons, hK]
  obtain ⟨S1, h1, hst1, hwt1, hka1⟩ := wait_register_step r [K] s hne
  have hfilter : [K].filter (fun k => (mapFind s._store k).isNone) = [K] := by
    simp [List.filter_cons, hK]
  rw [hfilter] at hwt1
  simp only [List.foldl_cons, List.foldl_nil] at hwt1
  have hwonly : waitsOnlyOn S1 r (fun k => k = K) := by
    intro e he hre
    rw [hwt1] at he
    rcases mem_mapInsert he with h | h
    · rw [h]
    · exact absurd hre (hw e h)
  have hcount : countStops (runDeamon S1 evts).2 r = 0 :=
    noStops_run evts S1 r hwonly (fun e he =>
      ⟨fun k d hset hkK => hnoset e he d (by rw [hkK] at hset; exact hset),
       fun ks hwt => hnowait e he ks hwt⟩)
  have hfinal : mapFind (runDeamon S1 evts).1._store K = none :=
    run_store_none evts S1 K (by rw [hst1]; exact hK) hnoset
  constructor
  · rw [runDeamon_cons_ok h1]
    show countStops ([] ++ (runDeamon S1 evts).2) r = 0
    rw [List.nil_append]
    exact hcount
  · rw [runDeamon_cons_ok h1]
    show runDeamon (runDeamon S1 evts).1 ((r, .get K) :: more) =
      ((runDeamon S1 evts).1, [])
    exact runDeamon_cons_error (query_get_missing hfinal r) more

theorem get_never_set_fatal_witness :
    mapFind StoreDeamon.init._store "z" = none ∧
    notInWaiting StoreDeamon.init 0 ∧
    (countStops (runDeamon StoreDeamon.init
        [(0, .wait ["z"]), (1, .set "a" [1])]).2 0 = 0 ∧
      runDeamon (runDeamon StoreDeamon.init
          [(0, .wait ["z"]), (1, .set "a" [1])]).1 [(0, .get "z"), (1, .get "a")] =
        ((runDeamon StoreDeamon.init [(0, .wait ["z"]), (1, .set "a" [1])]).1, [])) :=
  ⟨rfl,
    by intro e he hre; simp [StoreDeamon.init] at he,
    get_never_set_fatal "z" 0 StoreDeamon.init [(1, .set "a" [1])] [(1, .get "a")]
      rfl
      (by intro e he hre; simp [StoreDeamon.init] at he)
      (by intro e he d; simp at he; simp [he])
      (by intro e he ks hks; simp at he; subst he; simp at hks)⟩

/-- Claim C9: under the protocol precondition that a connection only issues
a WAIT while its outstanding-wait counter is zero (at most one WAIT in
flight), the invariant "each connection's counter equals the total number
of occurrences of its index across all waiter lists" holds in the initial
state and is preserved by every successfully processed SET, GET and WAIT
request. -/
theorem counters_match_waiting :
    Inv StoreDeamon.init ∧
    ∀ (s s' : StoreDeamon) (rank : Nat) (req : Request) (msgs : List Msg),
      Inv s → (∀ ks, req = .wait ks → s._keys_awaited rank = 0) →
      query rank req s = .ok (s', msgs) → Inv s' := by
  constructor
  · intro p
    simp [StoreDeamon.init, totalOcc]
  · intro s s' rank req msgs hInv hpre hok
    cases req with
    | set key data =>
        rw [query_set_eq rank key data s, Except.ok.injEq, Prod.mk.injEq] at hok
        obtain ⟨hs', -⟩ := hok
        subst hs'
        intro p
        show (wakeProcs s._keys_awaited ((mapFind s._waiting key).getD [])).1 p =
          (totalOcc (mapErase s._waiting key) p : Int)
        rw [wakeProcs_fst]
        cases hfind : mapFind s._waiting key with
        | none =>
            rw [mapErase_eq_self_of_find_none hfind]
            have h1 := hInv p
            simp only [Option.getD_none, List.count_nil, Nat.cast_zero]
            omega
        | some l =>
            simp only [Option.getD_some]
            have h1 := hInv p
            have h2 := totalOcc_erase hfind p
            omega
    | get key =>
        cases hfind : mapFind s._store key with
        | none =>
            rw [query_get_missing hfind rank] at hok
            simp at hok
        | some data =>
            rw [query_get_found hfind rank, Except.ok.injEq, Prod.mk.injEq] at hok
            obtain ⟨hs', -⟩ := hok
            subst hs'
            exact hInv
    | wait ks =>
        have hka0 : s._keys_awaited rank = 0 := hpre ks rfl
        by_cases hf : ks.filter (fun k => (mapFind s._store k).isNone) = []
        · rw [query_wait_all_present hf rank, Except.ok.injEq, Prod.mk.injEq] at hok
          obtain ⟨hs', -⟩ := hok
          subst hs'
          exact hInv
        · rw [query_wait_register rank hf, Except.ok.injEq, Prod.mk.injEq] at hok
          obtain ⟨hs', -⟩ := hok
          subst hs'
          intro p
          show updateFn s._keys_awaited rank
              ((ks.filter (fun k => (mapFind s._store k).isNone)).length : Int) p =
            (totalOcc ((ks.filter (fun k => (mapFind s._store k).isNone)).foldl
              (fun w key => waitingPush w key rank) s._waiting) p : Int)
          rw [totalOcc_foldl_push]
          by_cases hpr : p = rank
          · subst hpr
            have h0 : totalOcc s._waiting p = 0 := by
              have h1 := hInv p
              omega
            simp only [updateFn, if_pos rfl, h0, if_pos rfl]
            simp
          · have h1 := hInv p
            simp only [updateFn, if_neg hpr]
            rw [if_neg (fun h => hpr h.symm)]
            omega
    | other b =>
        rw [query_other_throws rank b s] at hok
        simp at hok

theorem counters_match_waiting_witness :
    Inv StoreDeamon.init ∧
    Inv { _store := [],
          _waiting := [("a", [0])],
          _keys_awaited := updateFn (fun _ => 0) 0 ((1 : Nat) : Int) } :=
  ⟨counters_match_waiting.1,
    counters_match_waiting.2 StoreDeamon.init
      { _store := [],
        _waiting := [("a", [0])],
        _keys_awaited := updateFn (fun _ => 0) 0 ((1 : Nat) : Int) }
      0 (.wait ["a"]) [] counters_match_waiting.1 (fun _ _ => rfl) rfl⟩

/-- Claim C1: a connection r that registered a WAIT on two absent keys A, B
receives STOP_WAITING exactly once, exactly when the SET making the last
awaited key present is processed: the WAIT itself gets no reply, the SET of
A alone sends r nothing, the SET of B sends r exactly one STOP_WAITING, and
afterwards no trace of further requests (with no new WAIT from r) ever
sends r another STOP_WAITING. -/
theorem wait_notified_exactly_once (A B : String) (V1 V2 : Bytes) (r r1 r2 : Nat)
    (s : StoreDeamon) (hAB : A ≠ B)
    (hA : mapFind s._store A = none) (hB : mapFind s._store B = none)
    (hw : notInWaiting s r) :
    ∃ s1 s2 s3 m2 m3,
      query r (.wait [A, B]) s = .ok (s1, []) ∧
      query r1 (.set A V1) s1 = .ok (s2, m2) ∧ countStops m2 r = 0 ∧
      query r2 (.set B V2) s2 = .ok (s3, m3) ∧ countStops m3 r = 1 ∧
      ∀ evts, (∀ e ∈ evts, ∀ ks, e.2 = Request.wait ks → e.1 ≠ r) →
        countStops (runDeamon s3 evts).2 r = 0 := by
  have hfilter : [A, B].filter (fun k => (mapFind s._store k).isNone) = [A, B] := by
    simp [List.filter_cons, hA, hB]
  have hne : [A, B].filter (fun k => (mapFind s._store k).isNone) ≠ [] := by
    rw [hfilter]
    simp
  obtain ⟨S1, h1, hst1, hwt1, hka1⟩ := wait_register_step r [A, B] s hne
  rw [hfilter] at hwt1 hka1
  simp only [List.foldl_cons, List.foldl_nil] at hwt1
  have hka1r : S1._keys_awaited r = 2 := by
    rw [hka1]
    simp [updateFn]
  have hfA : mapFind S1._waiting A = some (((mapFind s._waiting A).getD []) ++ [r]) := by
    rw [hwt1]
    simp only [waitingPush]
    rw [mapFind_mapInsert_ne _ _ hAB]
    exact mapFind_mapInsert_self _ _ _
  have hcA : ((mapFind S1._waiting A).getD []).count r = 1 := by
    rw [hfA]
    simp only [Option.getD_some, List.count_append]
    rw [count_getD_zero hw A]
    simp
  have hfB : mapFind S1._waiting B = some (((mapFind s._waiting B).getD []) ++ [r]) := by
    rw [hwt1]
    simp only [waitingPush]
    rw [mapFind_mapInsert_self, mapFind_mapInsert_ne _ _ (Ne.symm hAB)]
  obtain ⟨S2, M2, h2, hst2, hwt2, hka2, hcnt2, -⟩ := set_step r1 A V1 S1
  have hm2 : countStops M2 r = 0 := by
    rw [hcnt2 r, hka1r, hcA]
    norm_num
  have hka2r : S2._keys_awaited r = 1 := by
    rw [hka2 r, hka1r, hcA]
    norm_num
  have hfB2 : mapFind S2._waiting B = some (((mapFind s._waiting B).getD []) ++ [r]) := by
    rw [hwt2, mapFind_mapErase_ne _ (Ne.symm hAB), hfB]
  have hcB : ((mapFind S2._waiting B).getD []).count r = 1 := by
    rw [hfB2]
    simp only [Option.getD_some, List.count_append]
    rw [count_getD_zero hw B]
    simp
  obtain ⟨S3, M3, h3, hst3, hwt3, hka3, hcnt3, -⟩ := set_step r2 B V2 S2
  have hm3 : countStops M3 r = 1 := by
    rw [hcnt3 r, hka2r, hcB]
    norm_num
  have hW3 : S3._waiting = mapErase (mapErase s._waiting A) B := by
    rw [hwt3, hwt2, hwt1]
    simp only [waitingPush]
    rw [mapErase_mapInsert_ne _ _ (Ne.symm hAB), mapErase_mapInsert_self,
      mapErase_mapInsert_self]
  have hnot3 : notInWaiting S3 r := by
    intro e he hre
    rw [hW3] at he
    exact hw e (mem_mapErase (mem_mapErase he)) hre
  refine ⟨S1, S2, S3, M2, M3, h1, h2, hm2, h3, hm3, ?_⟩
  intro evts hevts
  exact @noStops_run (fun _ => False) evts S3 r
    (fun e he hre => (hnot3 e he) hre)
    (fun e he => ⟨fun k d _ hf => hf, fun ks hwt => hevts e he ks hwt⟩)

theorem wait_notified_exactly_once_witness :
    ("a" ≠ "b") ∧ mapFind StoreDeamon.init._store "a" = none ∧
    mapFind StoreDeamon.init._store "b" = none ∧ notInWaiting StoreDeamon.init 0 ∧
    (∃ s1 s2 s3 m2 m3,
      query 0 (.wait ["a", "b"]) StoreDeamon.init = .ok (s1, []) ∧
      query 1 (.set "a" [1]) s1 = .ok (s2, m2) ∧ countStops m2 0 = 0 ∧
      query 2 (.set "b" [2]) s2 = .ok (s3, m3) ∧ countStops m3 0 = 1 ∧
      ∀ evts, (∀ e ∈ evts, ∀ ks, e.2 = Request.wait ks → e.1 ≠ 0) →
        countStops (runDeamon s3 evts).2 0 = 0) :=
  ⟨by decide, rfl, rfl,
    by intro e he hre; simp [StoreDeamon.init] at he,
    wait_notified_exactly_once "a" "b" [1] [2] 0 1 2 StoreDeamon.init (by decide) rfl rfl
      (by intro e he hre; simp [StoreDeamon.init] at he)⟩

end THD
